import Mathlib

/-!
Shallow embedding of the consume-n-produce product-harvesting pipeline:
the TTL response cache (`ResponseCache` in the source), the per-endpoint
pagination loop (`fetchAllProducts`), the two-tier fetch strategy
(direct HTTP with a Puppeteer fallback, `fetchWithPuppeteer`), the record
normalizer (`processProduct`), the minimum-price filter
(`filterProductsByPrice`) and the keyword classifier
(`organizeCollections.ts`: `createLookupMaps`, `normalizeText`,
`findBestMatchingCollection`, `classifyProduct`).

JavaScript `Map` objects are modelled as association lists with unique
keys and insertion order preserved; `Date.now()` is an explicit `Int`
parameter; JavaScript exceptions are modelled with `Except Unit`;
JavaScript numbers that the claims exercise (prices) are modelled as `ℚ`,
which is order-faithful to IEEE doubles on the finite decimal literals
the code parses and compares (the code never does arithmetic on them
beyond `Math.min`).  File-system side effects (the durability flush of
the cache, console logging) return no data to the program and are elided.
-/

/-- Association-list model of a JavaScript `Map` with string keys:
unique keys, insertion order preserved. -/
abbrev JsMap (β : Type) : Type := List (String × β)

/-- Model of `Map.prototype.get`. -/
def jsGet {β : Type} : JsMap β → String → Option β
  | [], _ => none
  | (k', v) :: rest, k => if k' = k then some v else jsGet rest k

/-- Model of `Map.prototype.set`: overwrite in place if the key exists,
append otherwise. -/
def jsSet {β : Type} : JsMap β → String → β → JsMap β
  | [], k, v => [(k, v)]
  | (k', v') :: rest, k, v =>
    if k' = k then (k, v) :: rest else (k', v') :: jsSet rest k v

/-- Model of `Map.prototype.delete`. -/
def jsDelete {β : Type} : JsMap β → String → JsMap β
  | [], _ => []
  | (k', v) :: rest, k => if k' = k then rest else (k', v) :: jsDelete rest k

theorem jsGet_jsSet_self {β : Type} (m : JsMap β) (k : String) (v : β) :
    jsGet (jsSet m k v) k = some v := by
  induction m with
  | nil => simp [jsSet, jsGet]
  | cons hd tl ih =>
    obtain ⟨k', v'⟩ := hd
    by_cases h : k' = k <;> simp [jsSet, jsGet, h, ih]

theorem jsGet_jsSet_ne {β : Type} (m : JsMap β) (k k' : String) (v : β)
    (h : k' ≠ k) : jsGet (jsSet m k v) k' = jsGet m k' := by
  have h' : ¬ k = k' := fun hh => h hh.symm
  induction m with
  | nil => simp [jsSet, jsGet, h']
  | cons hd tl ih =>
    obtain ⟨k₀, v₀⟩ := hd
    by_cases h₀ : k₀ = k
    · subst h₀
      simp [jsSet, jsGet, h']
    · simp only [jsSet, if_neg h₀]
      by_cases h₁ : k₀ = k' <;> simp [jsGet, h₁, ih]

theorem mem_jsSet {β : Type} (m : JsMap β) (k : String) (v : β) (p : String × β)
    (hp : p ∈ jsSet m k v) : p ∈ m ∨ p = (k, v) := by
  induction m with
  | nil => simp [jsSet] at hp; simp [hp]
  | cons hd tl ih =>
    obtain ⟨k₀, v₀⟩ := hd
    by_cases h₀ : k₀ = k
    · simp only [jsSet, if_pos h₀] at hp
      rcases List.mem_cons.mp hp with h | h
      · right; exact h
      · left; exact List.mem_cons_of_mem _ h
    · simp only [jsSet, if_neg h₀] at hp
      rcases List.mem_cons.mp hp with h | h
      · left; exact h ▸ List.mem_cons_self _ _
      · rcases ih h with h' | h'
        · left; exact List.mem_cons_of_mem _ h'
        · right; exact h'

theorem jsGet_some_of_jsSet {β : Type} (m : JsMap β) (k k' : String) (v : β)
    (l : β) (h : jsGet (jsSet m k v) k' = some l) :
    jsGet m k' = some l ∨ (k' = k ∧ l = v) := by
  by_cases hk : k' = k
  · subst hk
    rw [jsGet_jsSet_self] at h
    right; exact ⟨rfl, (Option.some_inj.mp h).symm⟩
  · left; rw [jsGet_jsSet_ne m k k' v hk] at h; exact h

theorem jsGet_jsDelete_self {β : Type} (m : JsMap β) (k : String)
    (hnd : (m.map Prod.fst).Nodup) : jsGet (jsDelete m k) k = none := by
  induction m with
  | nil => simp [jsDelete, jsGet]
  | cons hd tl ih =>
    obtain ⟨k₀, v₀⟩ := hd
    simp only [List.map_cons, List.nodup_cons] at hnd
    by_cases h₀ : k₀ = k
    · subst h₀
      simp only [jsDelete, if_pos rfl]
      -- k₀ does not occur among the keys of tl, so lookup misses
      clear ih
      induction tl with
      | nil => simp [jsGet]
      | cons hd' tl' ih' =>
        obtain ⟨k₁, v₁⟩ := hd'
        simp only [List.mem_map, not_exists, not_and] at hnd
        have hk₁ : k₁ ≠ k₀ := by
          intro hh
          exact hnd.1 (k₁, v₁) (List.mem_cons_self _ _) hh
        simp only [jsGet, if_neg hk₁]
        refine ih' ⟨?_, (List.nodup_cons.mp hnd.2).2⟩
        simp only [List.mem_map, not_exists, not_and]
        intro p hp
        exact hnd.1 p (List.mem_cons_of_mem _ hp)
    · simp [jsDelete, if_neg h₀, jsGet, h₀, ih hnd.2]

/- ### Cache (`ResponseCache`, cache implementation in the source)

The source class holds `cache : Map<string, CacheItem>`, `hitCount`,
`missCount`; `loadCache`/`saveCache` only move this state to and from
disk and are elided.  `Date.now()` is the explicit `now` argument. -/

/-- Source `CacheItem`: `{ data, expiry }` where `expiry` was set to
`Date.now() + ttl`. -/
structure CacheItem (α : Type) where
  data : α
  expiry : Int
  deriving Repr, DecidableEq

/-- In-memory state of a `ResponseCache` instance. -/
structure ResponseCacheState (α : Type) where
  cache : JsMap (CacheItem α)
  hitCount : Nat
  missCount : Nat
  deriving Repr, DecidableEq

/-- Source `ResponseCache.get`: a missing key or an entry with
`Date.now() > item.expiry` is a miss (the expired entry is deleted);
otherwise a hit returning the stored data. -/
def cacheGet {α : Type} (now : Int) (s : ResponseCacheState α) (key : String) :
    Option α × ResponseCacheState α :=
  match jsGet s.cache key with
  | none => (none, { s with missCount := s.missCount + 1 })
  | some item =>
    if item.expiry < now then
      (none, { s with cache := jsDelete s.cache key,
                      missCount := s.missCount + 1 })
    else
      (some item.data, { s with hitCount := s.hitCount + 1 })

/-- Source `ResponseCache.has`: `hasItem = cache.has(key) && now <= expiry`;
a miss bumps `missCount`, a hit bumps `hitCount`.  Note: unlike `get`,
`has` performs no deletion. -/
def cacheHas {α : Type} (now : Int) (s : ResponseCacheState α) (key : String) :
    Bool × ResponseCacheState α :=
  let hasItem : Bool :=
    match jsGet s.cache key with
    | some item => decide (now ≤ item.expiry)
    | none => false
  if hasItem then (true, { s with hitCount := s.hitCount + 1 })
  else (false, { s with missCount := s.missCount + 1 })

/-- Source `ResponseCache.set`: overwrite and re-derive
`expiry = Date.now() + ttl`. -/
def cacheSet {α : Type} (now : Int) (s : ResponseCacheState α) (key : String)
    (data : α) (ttl : Int) : ResponseCacheState α :=
  { s with cache := jsSet s.cache key ⟨data, now + ttl⟩ }

/-- State used to test claim C4 on concrete inputs: one entry under key
"k" whose expiry 5 is already past at time 10. -/
def c4State : ResponseCacheState Nat :=
  { cache := [("k", ⟨7, 5⟩)], hitCount := 0, missCount := 0 }

/-- C4 counterexample: the claim asserts that on an expired entry *both*
`get` and `has` remove the entry from the mapping.  At time 10 on an
entry expired at 5, `has` answers absent and bumps the miss counter but
leaves the entry in the mapping untouched. -/
theorem c4_has_does_not_evict :
    (cacheHas 10 c4State "k").1 = false ∧
    (cacheHas 10 c4State "k").2.missCount = 1 ∧
    jsGet (cacheHas 10 c4State "k").2.cache "k" = some ⟨7, 5⟩ := by
  refine ⟨rfl, rfl, rfl⟩

/-- C4 (amended): with a well-formed mapping (unique keys, as a JS `Map`
guarantees), a present entry with `now ≤ expiry` is returned by `get`
and reported by `has`, each bumping the hit counter; once `now > expiry`
both return absent and bump the miss counter, `get` (but not `has`)
removes the entry, and after that eviction no later `get`/`has` on the
key can resurrect it. -/
theorem c4_cache_expiry (α : Type) (s : ResponseCacheState α) (key : String)
    (now : Int) (item : CacheItem α)
    (hnd : (s.cache.map Prod.fst).Nodup)
    (hit : jsGet s.cache key = some item) :
    (now ≤ item.expiry →
      cacheGet now s key = (some item.data, { s with hitCount := s.hitCount + 1 }) ∧
      cacheHas now s key = (true, { s with hitCount := s.hitCount + 1 })) ∧
    (item.expiry < now →
      cacheGet now s key =
        (none, { s with cache := jsDelete s.cache key,
                        missCount := s.missCount + 1 }) ∧
      cacheHas now s key = (false, { s with missCount := s.missCount + 1 }) ∧
      (∀ later : Int,
        (cacheGet later (cacheGet now s key).2 key).1 = none ∧
        (cacheHas later (cacheGet now s key).2 key).1 = false)) := by
  constructor
  · intro hle
    have hnotlt : ¬ item.expiry < now := not_lt.mpr hle
    constructor
    · simp [cacheGet, hit, hnotlt]
    · simp [cacheHas, hit, hle]
  · intro hlt
    have hget : cacheGet now s key =
        (none, { s with cache := jsDelete s.cache key,
                        missCount := s.missCount + 1 }) := by
      simp [cacheGet, hit, hlt]
    refine ⟨hget, ?_, ?_⟩
    · have hnotle : ¬ now ≤ item.expiry := not_le.mpr hlt
      simp [cacheHas, hit, hnotle]
    · intro later
      rw [hget]
      have hgone : jsGet (jsDelete s.cache key) key = none :=
        jsGet_jsDelete_self s.cache key hnd
      constructor
      · simp [cacheGet, hgone]
      · simp [cacheHas, hgone]

/-- Witness for C4 at concrete inputs: both the unexpired branch
(time 50, expiry 100) and the expired branch (time 150) of
`c4_cache_expiry`, on the single-entry state `[("a", (3, 100))]`. -/
theorem c4_cache_expiry_witness :
    ((50 : Int) ≤ 100 →
      cacheGet 50 ⟨[("a", ⟨(3 : Nat), 100⟩)], 0, 0⟩ "a" =
        (some 3, ⟨[("a", ⟨3, 100⟩)], 1, 0⟩) ∧
      cacheHas 50 ⟨[("a", ⟨(3 : Nat), 100⟩)], 0, 0⟩ "a" =
        (true, ⟨[("a", ⟨3, 100⟩)], 1, 0⟩)) ∧
    ((100 : Int) < 150 →
      cacheGet 150 ⟨[("a", ⟨(3 : Nat), 100⟩)], 0, 0⟩ "a" =
        (none, ⟨[], 0, 1⟩) ∧
      cacheHas 150 ⟨[("a", ⟨(3 : Nat), 100⟩)], 0, 0⟩ "a" =
        (false, ⟨[("a", ⟨3, 100⟩)], 0, 1⟩) ∧
      (∀ later : Int,
        (cacheGet later (cacheGet 150 ⟨[("a", ⟨(3 : Nat), 100⟩)], 0, 0⟩ "a").2 "a").1 = none ∧
        (cacheHas later (cacheGet 150 ⟨[("a", ⟨(3 : Nat), 100⟩)], 0, 0⟩ "a").2 "a").1 = false)) := by
  have h := c4_cache_expiry Nat ⟨[("a", ⟨3, 100⟩)], 0, 0⟩ "a" 50 ⟨3, 100⟩
    (by decide) rfl
  have h' := c4_cache_expiry Nat ⟨[("a", ⟨3, 100⟩)], 0, 0⟩ "a" 150 ⟨3, 100⟩
    (by decide) rfl
  exact ⟨fun hle => h.1 hle, fun hlt => h'.2 hlt⟩

/- ### Paginator (`fetchAllProducts`, the while loop at lines 29-92)

Loop state is (page, retries, allProducts); each iteration performs one
fetch attempt (the whole direct-or-Puppeteer step for one page, modelled
abstractly as `fetch page : Except Unit (List α)`, `Except.error`
standing for a thrown exception).  The source fixes the page size to 250
(`limit=250`, `products.length < 250`) and the retry budget to
`MAX_RETRIES = 3` from the constants module; both are parameters here so
claims can range over the configured values.  `fuel` bounds the number
of iterations to make the function total; `none` means the fuel ran out
before the loop exited.  The result carries the accumulated records, the
number of fetch attempts made, and the final retry counter.  On an empty
page the source breaks before resetting `retries`; on a short non-empty
page it resets `retries` to 0 before exiting. -/
def pagLoop {α : Type} (fetch : Nat → Except Unit (List α))
    (pageSize maxRetries : Nat) :
    Nat → Nat → Nat → List α → Nat → Option (List α × Nat × Nat)
  | 0, _, _, _, _ => none
  | fuel + 1, page, retries, acc, attempts =>
    if retries < maxRetries then
      match fetch page with
      | Except.ok products =>
        if products.length = 0 then some (acc, attempts + 1, retries)
        else
          if products.length < pageSize then
            some (acc ++ products, attempts + 1, 0)
          else
            pagLoop fetch pageSize maxRetries fuel (page + 1) 0
              (acc ++ products) (attempts + 1)
      | Except.error _ =>
        pagLoop fetch pageSize maxRetries fuel page (retries + 1) acc
          (attempts + 1)
    else some (acc, attempts, retries)

/-- C1: a fetch that yields exactly `pageSize` records on page 1 and an
empty list on page 2 makes the loop return exactly the page-1 records in
order after exactly two fetch attempts with the retry counter still 0;
and an empty page-1 result terminates pagination immediately after one
attempt. -/
theorem c1_full_page_then_empty :
    (∀ (pageSize maxRetries fuel : Nat) (l : List Nat)
       (fetch : Nat → Except Unit (List Nat)),
      0 < pageSize → 0 < maxRetries → 2 ≤ fuel →
      fetch 1 = Except.ok l → l.length = pageSize → fetch 2 = Except.ok [] →
      pagLoop fetch pageSize maxRetries fuel 1 0 [] 0 = some (l, 2, 0)) ∧
    (∀ (pageSize maxRetries fuel : Nat) (fetch : Nat → Except Unit (List Nat)),
      0 < maxRetries → 1 ≤ fuel → fetch 1 = Except.ok ([] : List Nat) →
      pagLoop fetch pageSize maxRetries fuel 1 0 [] 0 = some ([], 1, 0)) := by
  constructor
  · intro pageSize maxRetries fuel l fetch hps hmr hfuel hf1 hlen hf2
    obtain ⟨f, rfl⟩ : ∃ f, fuel = f + 1 + 1 := ⟨fuel - 2, by omega⟩
    have h1 : ¬ l.length = 0 := by omega
    have h2 : ¬ l.length < pageSize := by omega
    simp [pagLoop, hmr, hf1, h1, h2, hf2]
  · intro pageSize maxRetries fuel fetch hmr hfuel hf1
    obtain ⟨f, rfl⟩ : ∃ f, fuel = f + 1 := ⟨fuel - 1, by omega⟩
    simp [pagLoop, hmr, hf1]

/-- Fetch family used to witness C1: two full records on page 1 (with
page size 2), nothing on page 2. -/
def c1Fetch : Nat → Except Unit (List Nat) :=
  fun p => if p = 1 then Except.ok [10, 20] else Except.ok []

/-- Witness for C1 at page size 2, retry budget 3 (the source's
`MAX_RETRIES`): both conjuncts of `c1_full_page_then_empty` at concrete
inputs. -/
theorem c1_full_page_then_empty_witness :
    pagLoop c1Fetch 2 3 2 1 0 [] 0 = some ([10, 20], 2, 0) ∧
    pagLoop (fun _ => Except.ok []) 2 3 1 1 0 ([] : List Nat) 0 =
      some ([], 1, 0) := by
  constructor
  · exact c1_full_page_then_empty.1 2 3 2 [10, 20] c1Fetch (by decide)
      (by decide) (by decide) rfl rfl rfl
  · exact c1_full_page_then_empty.2 2 3 1 (fun _ => Except.ok []) (by decide)
      (by decide) rfl

/-- Helper for C2: with a fetch that throws on every attempt, the loop
runs until the retry counter hits the budget, making one attempt per
remaining retry, and returns the accumulator unchanged. -/
theorem pagLoop_allError {α : Type} (pageSize maxRetries : Nat) :
    ∀ (fuel retries attempts page : Nat) (acc : List α),
      retries ≤ maxRetries → maxRetries - retries < fuel →
      pagLoop (fun _ => Except.error ()) pageSize maxRetries fuel page retries
          acc attempts
        = some (acc, attempts + (maxRetries - retries), maxRetries) := by
  intro fuel
  induction fuel with
  | zero => intro retries attempts page acc _ hf; omega
  | succ f ih =>
    intro retries attempts page acc hle hf
    by_cases hlt : retries < maxRetries
    · have step :
          pagLoop (fun _ => Except.error ()) pageSize maxRetries (f + 1) page
              retries acc attempts
            = pagLoop (fun _ => Except.error ()) pageSize maxRetries f page
              (retries + 1) acc (attempts + 1) := by
        simp [pagLoop, hlt]
      rw [step, ih (retries + 1) (attempts + 1) page acc (by omega) (by omega)]
      have harith : attempts + 1 + (maxRetries - (retries + 1))
          = attempts + (maxRetries - retries) := by omega
      rw [harith]
    · have hr : retries = maxRetries := by omega
      subst hr
      simp [pagLoop, hlt]

/-- C2: a fetch that throws on every attempt makes the loop return the
empty accumulation after exactly `maxRetries` fetch attempts, without
the error escaping; and, in general, once the retry counter has reached
the configured maximum the loop returns whatever has been accumulated so
far. -/
theorem c2_exhausted_retries :
    (∀ (pageSize maxRetries fuel : Nat) (fetch : Nat → Except Unit (List Nat)),
      0 < maxRetries → (∀ p, fetch p = Except.error ()) → maxRetries < fuel →
      pagLoop fetch pageSize maxRetries fuel 1 0 [] 0 =
        some ([], maxRetries, maxRetries)) ∧
    (∀ (pageSize maxRetries fuel page attempts : Nat) (acc : List Nat)
       (fetch : Nat → Except Unit (List Nat)),
      pagLoop fetch pageSize maxRetries (fuel + 1) page maxRetries acc attempts
        = some (acc, attempts, maxRetries)) := by
  constructor
  · intro pageSize maxRetries fuel fetch _ hthrow hfuel
    have hfn : fetch = fun _ => Except.error () := funext hthrow
    subst hfn
    have h := pagLoop_allError (α := Nat) pageSize maxRetries fuel 0 0 1 []
      (by omega) (by omega)
    simpa using h
  · intro pageSize maxRetries fuel page attempts acc fetch
    simp [pagLoop]

/-- Witness for C2 at the source's retry budget `MAX_RETRIES = 3`:
three attempts, empty result, error never escaping; and the
budget-boundary exit returning the accumulated records. -/
theorem c2_exhausted_retries_witness :
    pagLoop (fun _ => Except.error ()) 250 3 4 1 0 ([] : List Nat) 0 =
      some ([], 3, 3) ∧
    pagLoop (fun _ => Except.error ()) 250 3 1 7 3 [5, 6] 2 =
      some ([5, 6], 2, 3) := by
  constructor
  · exact c2_exhausted_retries.1 250 3 4 (fun _ => Except.error ())
      (by decide) (fun _ => rfl) (by decide)
  · exact c2_exhausted_retries.2 250 3 0 7 2 [5, 6] (fun _ => Except.error ())

/- ### Fetch Strategy Selector (`fetchAllProducts` lines 39-63 and
`fetchWithPuppeteer`)

The direct path performs `fetch(url)` (which may reject on network
error or on the abort-controller timeout), checks `response.ok`, parses
`await response.json()` (which may throw), and extracts
`data.products || []`; a non-2xx status throws `new Error`.  Any throw
is caught and answered by `await fetchWithPuppeteer(url)` whose own
throw, if any, propagates to the selector's caller.  In
`fetchWithPuppeteer`, `puppeteer.launch` happens before the `try` block
and `browser.close()` runs in the `finally` block, so either of them
throwing escapes the function; everything in between (navigation, page
parsing, context evaluation, cache interaction) is inside the `try`
whose `catch` returns `[]`. -/

/-- Abstract outcome of the direct `fetch(url)` call once it resolves:
the HTTP status check and the body parse. -/
structure HttpResp (α : Type) where
  ok : Bool
  json : Except Unit (Option (List α))

/-- Direct-path attempt (lines 39-58): on `response.ok`, parse the body
and read `data.products || []`; otherwise throw. -/
def directAttempt {α : Type} (direct : Except Unit (HttpResp α)) :
    Except Unit (List α) :=
  match direct with
  | Except.error e => Except.error e
  | Except.ok resp =>
    if resp.ok then
      match resp.json with
      | Except.error e => Except.error e
      | Except.ok products? => Except.ok (products?.getD [])
    else Except.error ()

/-- Source `fetchWithPuppeteer`: `launch` precedes the `try`, the body
(lines 21-106: navigation, markup extraction, context evaluation, cache
writes) either produces a record list or throws into the `catch` which
returns `[]`, and `browser.close()` in the `finally` replaces the result
with its own throw if it fails. -/
def fetchWithPuppeteer {α : Type} (launch : Except Unit Unit)
    (body : Except Unit (List α)) (close : Except Unit Unit) :
    Except Unit (List α) :=
  match launch with
  | Except.error e => Except.error e
  | Except.ok _ =>
    let caught : Except Unit (List α) :=
      match body with
      | Except.ok products => Except.ok products
      | Except.error _ => Except.ok []
    match close with
    | Except.error e => Except.error e
    | Except.ok _ => caught

/-- One page fetch of the selector (lines 39-63): direct attempt first,
Puppeteer result on any direct failure. -/
def fetchPageOnce {α : Type} (direct : Except Unit (HttpResp α))
    (puppeteerResult : Except Unit (List α)) : Except Unit (List α) :=
  match directAttempt direct with
  | Except.ok products => Except.ok products
  | Except.error _ => puppeteerResult

/-- C5 counterexample: the claim says the selector never raises, yet
when the direct path fails and `puppeteer.launch` itself fails, the
launch failure escapes the selector (the source launches the browser
before its `try`/`catch`). -/
theorem c5_selector_can_raise :
    fetchPageOnce (α := Nat) (Except.error ())
      (fetchWithPuppeteer (Except.error ()) (Except.ok []) (Except.ok ())) =
    Except.error () := rfl

/-- C5 (amended): provided browser launch and close succeed, the
selector never raises: every direct-path failure (timeout, non-2xx,
parse error, network error) falls back to the rendered-page extraction,
a failing extraction body degrades to `[]`, and a direct-path success
with an absent `products` field yields `[]`. -/
theorem c5_selector_total :
    (∀ (direct : Except Unit (HttpResp Nat)) (body : Except Unit (List Nat)),
      ∃ products,
        fetchPageOnce direct
            (fetchWithPuppeteer (Except.ok ()) body (Except.ok ())) =
          Except.ok products) ∧
    (∀ (direct : Except Unit (HttpResp Nat)) (pupp : Except Unit (List Nat)),
      directAttempt direct = Except.error () →
      fetchPageOnce direct pupp = pupp) ∧
    (fetchPageOnce (α := Nat) (Except.error ())
        (fetchWithPuppeteer (Except.ok ()) (Except.error ()) (Except.ok ())) =
      Except.ok []) := by
  refine ⟨?_, ?_, rfl⟩
  · intro direct body
    match hd : directAttempt direct with
    | Except.ok products =>
      exact ⟨products, by simp [fetchPageOnce, hd]⟩
    | Except.error _ =>
      match body with
      | Except.ok products =>
        exact ⟨products, by simp [fetchPageOnce, hd, fetchWithPuppeteer]⟩
      | Except.error _ =>
        exact ⟨[], by simp [fetchPageOnce, hd, fetchWithPuppeteer]⟩
  · intro direct pupp h
    simp [fetchPageOnce, h]

/-- Witness for C5 (amended) at concrete inputs: a failed direct attempt
hands back exactly the fallback's result. -/
theorem c5_selector_total_witness :
    fetchPageOnce (α := Nat) (Except.error ()) (Except.ok [1]) =
      Except.ok [1] := by
  exact c5_selector_total.2.1 (Except.error ()) (Except.ok [1]) rfl

/- ### String primitives shared by the normalizer and the classifier

`String.prototype.split` with a non-empty separator and `parseFloat` are
modelled on explicit character lists so that every definition reduces in
the kernel.  `parseFloat` is modelled on finite decimal notation
(optional leading whitespace and sign, digits, fraction, exponent); the
JS specials `Infinity`/`NaN` inputs and non-ASCII whitespace are outside
the fragment the records exercise and parse to `none`. -/

/-- Whitespace recognised when `parseFloat` skips its leading prefix and
by the `\s` character class (ASCII fragment). -/
def jsIsSpaceChar (c : Char) : Bool :=
  c = ' ' || c = '\t' || c = '\n' || c = '\r' || c = '\x0b' || c = '\x0c'

/-- Does the character list start with the given separator? -/
def listStartsWith : List Char → List Char → Bool
  | _, [] => true
  | [], _ :: _ => false
  | c :: cs, s :: ss => c == s && listStartsWith cs ss

/-- Worker for `String.prototype.split` with a non-empty separator:
scan left to right, cut at every separator match; the `skip` counter
consumes the remaining separator characters after a cut. -/
def jsSplitSkip (sep : List Char) : List Char → Nat → List (List Char)
  | [], _ => [[]]
  | _ :: cs, skip + 1 => jsSplitSkip sep cs skip
  | c :: cs, 0 =>
    if listStartsWith (c :: cs) sep then
      [] :: jsSplitSkip sep cs (sep.length - 1)
    else
      match jsSplitSkip sep cs 0 with
      | [] => [[c]]
      | t :: ts => (c :: t) :: ts

/-- Model of `s.split(sep)` for a non-empty string separator. -/
def jsSplit (s sep : String) : List String :=
  (jsSplitSkip sep.data s.data 0).map (fun t => String.mk t)

/-- Numeric value of a digit run. -/
def digitsVal (ds : List Char) : Nat :=
  ds.foldl (fun acc c => 10 * acc + (c.toNat - 48)) 0

/-- Exponent suffix of a `parseFloat` literal: optional sign then
digits; an `e` not followed by a digit contributes nothing, as in JS
where `parseFloat("1e") = 1`. -/
def jsExponentVal (rest : List Char) : Int :=
  let signAndRest : Int × List Char :=
    match rest with
    | '-' :: r => (-1, r)
    | '+' :: r => (1, r)
    | _ => (1, rest)
  let ds := signAndRest.2.takeWhile Char.isDigit
  if ds.isEmpty then 0 else signAndRest.1 * (digitsVal ds : Int)

/-- Character-level part of `parseFloat`: longest numeric prefix after
optional whitespace and sign.  Yields the sign, the integer digits, the
fraction digits and the exponent; `none` models `NaN` (no digits). -/
def parseDecimal (s : String) : Option (Bool × List Char × List Char × Int) :=
  let cs := s.data.dropWhile (fun c => jsIsSpaceChar c)
  let signAndRest : Bool × List Char :=
    match cs with
    | '-' :: rest => (true, rest)
    | '+' :: rest => (false, rest)
    | _ => (false, cs)
  let ip := signAndRest.2.takeWhile Char.isDigit
  let r₁ := signAndRest.2.dropWhile Char.isDigit
  let fpAndRest : List Char × List Char :=
    match r₁ with
    | '.' :: rest => (rest.takeWhile Char.isDigit, rest.dropWhile Char.isDigit)
    | _ => ([], r₁)
  if ip.isEmpty && fpAndRest.1.isEmpty then none
  else
    let expo : Int :=
      match fpAndRest.2 with
      | 'e' :: rest => jsExponentVal rest
      | 'E' :: rest => jsExponentVal rest
      | _ => 0
    some (signAndRest.1, ip, fpAndRest.1, expo)

/-- Exact value of a parsed decimal literal. -/
def ratOfParts : Bool × List Char × List Char × Int → ℚ :=
  fun parts =>
    let (neg, ip, fp, e) := parts
    let base : ℚ := (digitsVal (ip ++ fp) : ℚ) / (10 : ℚ) ^ fp.length
    let scaled : ℚ :=
      match e with
      | Int.ofNat n => base * (10 : ℚ) ^ n
      | Int.negSucc n => base / (10 : ℚ) ^ (n + 1)
    if neg then -scaled else scaled

/-- Model of `parseFloat` on finite decimal notation; `none` models
`NaN`. -/
def jsParseFloat (s : String) : Option ℚ :=
  (parseDecimal s).map ratOfParts

/-- Model of `Math.min(...xs)` guarded by `xs.length > 0` as the source
does: `none` for the empty list. -/
def listMin : List ℚ → Option ℚ
  | [] => none
  | x :: xs => some (xs.foldl min x)

/- ### Normalizer (`processProduct`)

`product.tags` drives the only raw-record field whose shape changes the
control flow: an array passes through, a string is split on `", "`, a
nullish value falls to `[]` via `product.tags?.split(", ") || []`, and
any other truthy non-string value (a number, say) makes
`product.tags.split` a `TypeError` throw, modelled as `Except.error`. -/

/-- Raw `tags` field of an incoming record. -/
inductive RawTags where
  | arr (tags : List String)
  | str (s : String)
  | num (n : Int)
  | missing
  deriving Repr, DecidableEq

/-- Raw variant: the fields `processProduct` reads.  `price` and
`compare_at_price` are the source's string fields (`none` models an
absent field); `available` is the truthiness of `v.available`. -/
structure RawVariant where
  price : Option String
  compare_at_price : Option String
  available : Bool
  barcode : Option String
  weight : Option ℚ
  length : Option ℚ
  width : Option ℚ
  height : Option ℚ
  deriving Repr, DecidableEq

/-- Raw image: only `src` is read. -/
structure RawImage where
  src : Option String
  deriving Repr, DecidableEq

/-- Raw record: the fields `processProduct` reads.  `variants`/`images`
model `product.variants || []` with `none` for an absent field. -/
structure RawRecord where
  id : Option String
  title : Option String
  handle : Option String
  vendor : Option String
  product_type : Option String
  status : Option String
  tags : RawTags
  variants : Option (List RawVariant)
  images : Option (List RawImage)
  deriving Repr, DecidableEq

/-- Normalized product shape produced by `processProduct`. -/
structure Product where
  id : Option String
  title : Option String
  handle : Option String
  vendor : Option String
  product_type : Option String
  tags : List String
  price : Option ℚ
  compare_at_price : Option ℚ
  featured_image_url : Option String
  images_count : Nat
  variants_count : Nat
  status : String
  barcode : Option String
  brand : Option String
  category : Option String
  availability : String
  condition : String
  weight : Option ℚ
  dimensions : Option (Option ℚ × Option ℚ × Option ℚ)
  deriving Repr, DecidableEq

/-- Tags coercion (line 20 of `processProduct.ts`):
`Array.isArray(tags) ? tags : tags?.split(", ") || []`. -/
def coerceTags : RawTags → Except Unit (List String)
  | RawTags.arr tags => Except.ok tags
  | RawTags.str s => Except.ok (jsSplit s ", ")
  | RawTags.num _ => Except.error ()
  | RawTags.missing => Except.ok []

/-- Parseable variant prices (lines 7-9):
`variants.map(v => parseFloat(v.price)).filter(p => !isNaN(p))`;
`parseFloat` of an absent field is `NaN`. -/
def pricesOf (variants : List RawVariant) : List ℚ :=
  variants.filterMap (fun v => v.price.bind jsParseFloat)

/-- Parseable compare-at prices (lines 12-16), sourced only from
variants whose `compare_at_price` is truthy (present and non-empty). -/
def comparePricesOf (variants : List RawVariant) : List ℚ :=
  variants.filterMap (fun v =>
    match v.compare_at_price with
    | some s => if s = "" then none else jsParseFloat s
    | none => none)

/-- JS `x || dflt` on a string field: absent or empty falls to the
default. -/
def jsOrString (s : Option String) (dflt : String) : String :=
  match s with
  | some v => if v = "" then dflt else v
  | none => dflt

/-- Source `processProduct`: derive prices, coerce tags, fill defaults.
The only raw shape that can throw is a truthy non-string, non-array
`tags` value. -/
def processProduct (product : RawRecord) : Except Unit Product :=
  let variants := product.variants.getD []
  let images := product.images.getD []
  match coerceTags product.tags with
  | Except.error e => Except.error e
  | Except.ok tags =>
    Except.ok {
      id := product.id
      title := product.title
      handle := product.handle
      vendor := product.vendor
      product_type := product.product_type
      tags := tags
      price := listMin (pricesOf variants)
      compare_at_price := listMin (comparePricesOf variants)
      featured_image_url := images.head?.bind (fun i => i.src)
      images_count := images.length
      variants_count := variants.length
      status := jsOrString product.status "active"
      barcode := variants.head?.bind (fun v => v.barcode)
      brand := product.vendor
      category := product.product_type
      availability :=
        if variants.any (fun v => v.available) then "in stock"
        else "out of stock"
      condition := "new"
      weight := variants.head?.bind (fun v => v.weight)
      dimensions := variants.head?.map (fun v => (v.length, v.width, v.height))
    }

theorem foldl_min_mem (xs : List ℚ) : ∀ x, xs.foldl min x ∈ x :: xs := by
  induction xs with
  | nil => intro x; simp
  | cons y ys ih =>
    intro x
    have h := ih (min x y)
    simp only [List.foldl_cons]
    rcases List.mem_cons.mp h with h' | h'
    · rw [h']
      rcases min_choice x y with hm | hm <;> rw [hm] <;> simp
    · simp [h']

theorem foldl_min_le (xs : List ℚ) :
    ∀ x y, y ∈ x :: xs → xs.foldl min x ≤ y := by
  induction xs with
  | nil =>
    intro x y hy
    simp at hy
    simp [hy]
  | cons z zs ih =>
    intro x y hy
    simp only [List.foldl_cons]
    rcases List.mem_cons.mp hy with h' | h'
    · rw [h']
      exact le_trans (ih (min x z) (min x z) (List.mem_cons_self _ _))
        (min_le_left x z)
    · rcases List.mem_cons.mp h' with h'' | h''
      · rw [h'']
        exact le_trans (ih (min x z) (min x z) (List.mem_cons_self _ _))
          (min_le_right x z)
      · exact ih (min x z) y (List.mem_cons_of_mem _ h'')

/-- The guarded `Math.min` spread is the minimum: absent exactly on the
empty list, otherwise a member that bounds every member from below. -/
theorem listMin_spec (l : List ℚ) :
    (listMin l = none ↔ l = []) ∧
    ∀ q, listMin l = some q → q ∈ l ∧ ∀ r ∈ l, q ≤ r := by
  cases l with
  | nil => simp [listMin]
  | cons x xs =>
    constructor
    · simp [listMin]
    · intro q hq
      have hq' : xs.foldl min x = q := by
        simpa [listMin] using hq
      subst hq'
      exact ⟨foldl_min_mem xs x, foldl_min_le xs x⟩

/-- Fields of a successful `processProduct` run, read back from the
returned record. -/
theorem processProduct_ok_fields (r : RawRecord) (p : Product)
    (h : processProduct r = Except.ok p) :
    p.price = listMin (pricesOf (r.variants.getD [])) ∧
    p.compare_at_price = listMin (comparePricesOf (r.variants.getD [])) ∧
    coerceTags r.tags = Except.ok p.tags ∧
    p.status = jsOrString r.status "active" ∧
    p.condition = "new" := by
  unfold processProduct at h
  cases hct : coerceTags r.tags with
  | error e =>
    rw [hct] at h
    exact Except.noConfusion h
  | ok tags =>
    rw [hct] at h
    injection h with h
    subst h
    exact ⟨rfl, rfl, rfl, rfl, rfl⟩

/-- Raw record with every field absent; tags nullish. -/
def emptyRaw : RawRecord :=
  ⟨none, none, none, none, none, none, RawTags.missing, none, none⟩

/-- Variant carrying only price fields. -/
def mkVariant (price compareAt : Option String) : RawVariant :=
  ⟨price, compareAt, false, none, none, none, none, none⟩

/-- The claim's scenario: variants priced "19.99", "abc", "15.00". -/
def c6Record : RawRecord :=
  { emptyRaw with
    variants := some [mkVariant (some "19.99") none,
                      mkVariant (some "abc") none,
                      mkVariant (some "15.00") none] }

/-- The claim's scenario: no parseable variant price. -/
def c6NoParse : RawRecord :=
  { emptyRaw with variants := some [mkVariant (some "abc") none] }

/-- C6: the normalized price is the minimum of the parseable variant
prices (unparseable values discarded) and absent when none parse; the
same rule, restricted to variants with a truthy compare-at field, gives
`compare_at_price`; concretely, variants priced "19.99"/"abc"/"15.00"
normalize to price 15, and a record with no parseable variant price to
an absent price. -/
theorem c6_price_min_of_parseable :
    (∀ (r : RawRecord) (p : Product), processProduct r = Except.ok p →
      (p.price = none ↔ pricesOf (r.variants.getD []) = []) ∧
      (∀ q, p.price = some q →
        q ∈ pricesOf (r.variants.getD []) ∧
        ∀ q' ∈ pricesOf (r.variants.getD []), q ≤ q') ∧
      (p.compare_at_price = none ↔ comparePricesOf (r.variants.getD []) = []) ∧
      (∀ q, p.compare_at_price = some q →
        q ∈ comparePricesOf (r.variants.getD []) ∧
        ∀ q' ∈ comparePricesOf (r.variants.getD []), q ≤ q')) ∧
    (∀ p, processProduct c6Record = Except.ok p → p.price = some 15) ∧
    (∀ p, processProduct c6NoParse = Except.ok p → p.price = none) := by
  refine ⟨?_, ?_, ?_⟩
  · intro r p h
    obtain ⟨hp, hcp, -, -, -⟩ := processProduct_ok_fields r p h
    have hspec := listMin_spec (pricesOf (r.variants.getD []))
    have hcspec := listMin_spec (comparePricesOf (r.variants.getD []))
    refine ⟨?_, ?_, ?_, ?_⟩
    · rw [hp]; exact hspec.1
    · intro q hq; exact hspec.2 q (hp ▸ hq)
    · rw [hcp]; exact hcspec.1
    · intro q hq; exact hcspec.2 q (hcp ▸ hq)
  · intro p h
    have hp := (processProduct_ok_fields c6Record p h).1
    have hprices : pricesOf (c6Record.variants.getD []) =
        [ratOfParts (false, ['1', '9'], ['9', '9'], 0),
         ratOfParts (false, ['1', '5'], ['0', '0'], 0)] := rfl
    have ha : ratOfParts (false, ['1', '9'], ['9', '9'], 0) = 1999 / 100 := by
      show ((digitsVal (['1', '9'] ++ ['9', '9']) : ℚ) / (10 : ℚ) ^ 2 *
          (10 : ℚ) ^ (0 : Nat)) = 1999 / 100
      have hd : digitsVal (['1', '9'] ++ ['9', '9']) = 1999 := rfl
      rw [hd]
      norm_num
    have hb : ratOfParts (false, ['1', '5'], ['0', '0'], 0) = 15 := by
      show ((digitsVal (['1', '5'] ++ ['0', '0']) : ℚ) / (10 : ℚ) ^ 2 *
          (10 : ℚ) ^ (0 : Nat)) = 15
      have hd : digitsVal (['1', '5'] ++ ['0', '0']) = 1500 := rfl
      rw [hd]
      norm_num
    rw [hp, hprices, ha, hb]
    show some (min (1999 / 100 : ℚ) 15) = some 15
    rw [min_eq_right (by norm_num : (15 : ℚ) ≤ 1999 / 100)]
  · intro p h
    have hp := (processProduct_ok_fields c6NoParse p h).1
    rw [hp]
    rfl

/-- Witness for C6: the general minimum property applied to the
concrete three-variant record of the claim's scenario, and the two
concrete evaluations. -/
theorem c6_price_min_of_parseable_witness :
    ((processProduct c6Record).map (fun p => p.price) = Except.ok (some 15)) ∧
    ((processProduct c6NoParse).map (fun p => p.price) = Except.ok none) ∧
    (∀ q, (match processProduct c6Record with
           | Except.ok p => p.price
           | Except.error _ => none) = some q →
      q ∈ pricesOf (c6Record.variants.getD []) ∧
      ∀ q' ∈ pricesOf (c6Record.variants.getD []), q ≤ q') := by
  obtain ⟨hgen, h15, hnone⟩ := c6_price_min_of_parseable
  have hr : ∃ p, processProduct c6Record = Except.ok p := ⟨_, rfl⟩
  have hn : ∃ p, processProduct c6NoParse = Except.ok p := ⟨_, rfl⟩
  obtain ⟨p₁, hp₁⟩ := hr
  obtain ⟨p₂, hp₂⟩ := hn
  refine ⟨?_, ?_, ?_⟩
  · rw [hp₁, Except.map, h15 p₁ hp₁]
  · rw [hp₂, Except.map, hnone p₂ hp₂]
  · intro q hq
    rw [hp₁] at hq
    exact (hgen c6Record p₁ hp₁).2.1 q hq

/-- C7: tags normalization is idempotent on sequences — an input whose
tags field is already an ordered sequence passes through identically —
and the delimited string "a, b" is split into the sequence
["a", "b"]. -/
theorem c7_tags_idempotent :
    (∀ (r : RawRecord) (l : List String),
      (processProduct { r with tags := RawTags.arr l }).map (fun p => p.tags)
        = Except.ok l) ∧
    (∀ r : RawRecord,
      (processProduct { r with tags := RawTags.str "a, b" }).map
          (fun p => p.tags)
        = Except.ok ["a", "b"]) := by
  exact ⟨fun r l => rfl, fun r => rfl⟩

/-- Tags shapes on which line 20 of `processProduct.ts` cannot throw:
arrays, strings and nullish values. -/
def tagsIsSafe : RawTags → Bool
  | RawTags.num _ => false
  | _ => true

/-- Record whose tags field is the number 42. -/
def c8Bad : RawRecord := { emptyRaw with tags := RawTags.num 42 }

/-- C8 counterexample: the claim says normalize never fails and coerces
a numeric tags field to the empty sequence, but on `tags: 42` the
expression `product.tags?.split(", ")` is a TypeError throw (42 is
truthy and has no `split` method), so `processProduct` raises. -/
theorem c8_throws_on_number_tags :
    processProduct c8Bad = Except.error () := rfl

/-- C8 (amended): whenever the tags field is a sequence, a string, or
absent, normalize never fails: it returns a normalized product, coercing
a nullish tags field to the empty sequence, defaulting status to
"active" for absent or empty status, and fixing condition to "new"; a
truthy non-string, non-sequence tags value (such as a number) instead
raises a TypeError. -/
theorem c8_normalize_total_on_safe_tags :
    ∀ r : RawRecord, tagsIsSafe r.tags = true →
      ∃ p, processProduct r = Except.ok p ∧
        (r.tags = RawTags.missing → p.tags = []) ∧
        p.status = jsOrString r.status "active" ∧
        p.condition = "new" := by
  intro r hsafe
  obtain ⟨ts, hts⟩ : ∃ ts, coerceTags r.tags = Except.ok ts := by
    cases h : r.tags with
    | arr l => exact ⟨l, rfl⟩
    | str s => exact ⟨jsSplit s ", ", rfl⟩
    | num n => rw [h] at hsafe; exact absurd hsafe (by simp [tagsIsSafe])
    | missing => exact ⟨[], rfl⟩
  obtain ⟨p, hp⟩ : ∃ p, processProduct r = Except.ok p := by
    unfold processProduct
    rw [hts]
    exact ⟨_, rfl⟩
  have hf := processProduct_ok_fields r p hp
  refine ⟨p, hp, ?_, hf.2.2.2.1, hf.2.2.2.2⟩
  intro hmiss
  have h1 := hf.2.2.1
  rw [hmiss] at h1
  simp only [coerceTags] at h1
  exact (Except.ok.inj h1).symm

/-- Witness for C8 (amended) at the all-absent record: nullish tags
coerce to the empty sequence, status defaults to "active". -/
theorem c8_normalize_total_on_safe_tags_witness :
    ∃ p, processProduct emptyRaw = Except.ok p ∧
      (emptyRaw.tags = RawTags.missing → p.tags = []) ∧
      p.status = jsOrString emptyRaw.status "active" ∧
      p.condition = "new" :=
  c8_normalize_total_on_safe_tags emptyRaw (by decide)

/- ### Minimum-price filter (`filterProductsByPrice` in part_004)

`const productPrice = product.price || 0; return productPrice >= minPrice`:
an absent (or zero) derived price is coerced to 0 before the threshold
comparison. -/

/-- JS `price || 0` on the derived price field. -/
def jsOrZero (price : Option ℚ) : ℚ :=
  match price with
  | some p => if p = 0 then 0 else p
  | none => 0

/-- Source `filterProductsByPrice`: keep products whose coerced price
reaches the threshold. -/
def filterProductsByPrice (products : List Product) (minPrice : ℚ) :
    List Product :=
  products.filter (fun product => decide (minPrice ≤ jsOrZero product.price))

theorem jsOrZero_some (q : ℚ) : jsOrZero (some q) = q := by
  by_cases hq : q = 0 <;> simp [jsOrZero, hq]

/-- C10: for a strictly positive threshold, the minimum-price filter
keeps exactly the products with a present price at or above the
threshold; in particular every product with an absent derived price is
excluded (its price is treated as 0 before the comparison). -/
theorem c10_absent_price_excluded :
    ∀ (products : List Product) (minPrice : ℚ), 0 < minPrice →
      filterProductsByPrice products minPrice =
        products.filter (fun p =>
          match p.price with
          | some q => decide (minPrice ≤ q)
          | none => false) ∧
      ∀ p ∈ filterProductsByPrice products minPrice, p.price ≠ none := by
  intro products minPrice hmp
  have hpt : ∀ p : Product,
      decide (minPrice ≤ jsOrZero p.price) =
        match p.price with
        | some q => decide (minPrice ≤ q)
        | none => false := by
    intro p
    cases hpp : p.price with
    | none =>
      simp only [jsOrZero]
      exact decide_eq_false (not_le.mpr hmp)
    | some q =>
      simp only [jsOrZero_some]
  constructor
  · unfold filterProductsByPrice
    exact List.filter_congr (fun p _ => hpt p)
  · intro p hmem
    have hpred := List.of_mem_filter hmem
    intro hnone
    rw [hnone] at hpred
    simp only [jsOrZero] at hpred
    exact absurd (of_decide_eq_true hpred) (not_le.mpr hmp)

/-- Neutral product literal used to exercise the price filter. -/
def plainProduct (price : Option ℚ) : Product :=
  { id := none, title := none, handle := none, vendor := none,
    product_type := none, tags := [], price := price,
    compare_at_price := none, featured_image_url := none,
    images_count := 0, variants_count := 0, status := "active",
    barcode := none, brand := none, category := none,
    availability := "out of stock", condition := "new", weight := none,
    dimensions := none }

/-- Witness for C10 at threshold 25 over prices 30, absent, 10: the
filter equation and the absence guarantee, from
`c10_absent_price_excluded`. -/
theorem c10_absent_price_excluded_witness :
    filterProductsByPrice
        [plainProduct (some 30), plainProduct none, plainProduct (some 10)]
        25 =
      List.filter (fun p =>
          match p.price with
          | some q => decide ((25 : ℚ) ≤ q)
          | none => false)
        [plainProduct (some 30), plainProduct none, plainProduct (some 10)] ∧
    ∀ p ∈ filterProductsByPrice
        [plainProduct (some 30), plainProduct none, plainProduct (some 10)]
        25, p.price ≠ none :=
  c10_absent_price_excluded
    [plainProduct (some 30), plainProduct none, plainProduct (some 10)]
    25 (by decide)

/- ### Classifier (`organizeCollections.ts`)

The source builds `keywordToCollections` and `collectionPriorities` once
from the module constant `COLLECTIONS` and closes over them in
`findBestMatchingCollection`; here the two maps are explicit arguments
so the claims can range over taxonomies.  `toLowerCase`, the regex
classes `\w`/`\s` (non-unicode) and `split(' ')` are modelled on their
ASCII fragment. -/

/-- Source `CollectionConfig`. -/
structure CollectionConfig where
  keywords : List String
  priority : Int
  description : String
  deriving Repr, DecidableEq

/-- ASCII `toLowerCase` on one character. -/
def jsToLower (c : Char) : Char :=
  if 65 ≤ c.toNat ∧ c.toNat ≤ 90 then Char.ofNat (c.toNat + 32) else c

/-- `s.toLowerCase()`. -/
def lowerStr (s : String) : String := String.mk (s.data.map jsToLower)

/-- Regex class `\w` without the unicode flag: `[A-Za-z0-9_]`. -/
def jsIsWordChar (c : Char) : Bool :=
  (48 ≤ c.toNat && c.toNat ≤ 57) || (65 ≤ c.toNat && c.toNat ≤ 90) ||
    (97 ≤ c.toNat && c.toNat ≤ 122) || c.toNat == 95

/-- The source's `COLLECTIONS` constant. -/
def COLLECTIONS : List (String × CollectionConfig) := [
  ("digital",
    ⟨["gift card", "subscription", "license", "software", "e-book"], 1,
      "Digital products and services"⟩),
  ("apparel",
    ⟨["t-shirt", "hoodie", "sweatshirt", "jogger", "leggings", "shorts",
      "tank", "bra", "jacket", "hat", "socks", "underwear", "swimwear",
      "dress", "skirt", "pants"], 2, "Clothing and apparel"⟩),
  ("electronics",
    ⟨["phone", "tablet", "laptop", "notebook", "computer", "camera",
      "headphone", "speaker", "cable", "charger", "adapter", "dyson"], 3,
      "Electronic devices and accessories"⟩),
  ("books", ⟨["book", "audiobook"], 4, "Books and reading materials"⟩),
  ("home",
    ⟨["decor", "furniture", "kitchen", "bedding", "bath", "lighting",
      "garden", "pura"], 5, "Home and garden products"⟩),
  ("fitness",
    ⟨["fitness", "gym", "workout", "yoga", "protein", "supplement"], 6,
      "Fitness and wellness products"⟩),
  ("accessories",
    ⟨["bag", "backpack", "wallet", "case", "pela", "watch", "jewelry",
      "sunglasses"], 7, "Fashion accessories and bags"⟩),
  ("entertainment",
    ⟨["toy", "game", "puzzle", "netflix"], 8, "Entertainment and leisure"⟩),
  ("tools",
    ⟨["tool", "benchmark", "lift", "apluslift"], 9, "Tools and hardware"⟩),
  ("automotive",
    ⟨["car", "vehicle", "automotive"], 10, "Automotive products"⟩),
  ("health",
    ⟨["health", "wellness", "care", "beactivewear"], 11,
      "Health and personal care"⟩),
  ("uncategorized",
    ⟨[], 99, "Products that do not fit other categories"⟩)]

/-- Inner `keywords.forEach` of `createLookupMaps`: push the collection
name onto the entry for each lower-cased keyword, creating the entry on
first sight. -/
def addKeywords (name : String) : JsMap (List String) → List String →
    JsMap (List String)
  | m, [] => m
  | m, kw :: kws =>
    addKeywords name
      (jsSet m (lowerStr kw) ((jsGet m (lowerStr kw)).getD [] ++ [name])) kws

/-- Outer `Object.entries(COLLECTIONS).forEach` of `createLookupMaps`. -/
def clmAux : JsMap (List String) × JsMap Int →
    List (String × CollectionConfig) → JsMap (List String) × JsMap Int
  | maps, [] => maps
  | maps, e :: rest =>
    clmAux (addKeywords e.1 maps.1 e.2.keywords,
            jsSet maps.2 e.1 e.2.priority) rest

/-- Source `createLookupMaps`: derive `keywordToCollections` and
`collectionPriorities` from a taxonomy. -/
def createLookupMaps (collections : List (String × CollectionConfig)) :
    JsMap (List String) × JsMap Int :=
  clmAux ([], []) collections

/-- Replacement of every `\s+` run by a single space, left to right;
the flag records whether the previous character was whitespace. -/
def collapseAux : Bool → List Char → List Char
  | _, [] => []
  | prevSpace, c :: rest =>
    if jsIsSpaceChar c then
      if prevSpace then collapseAux true rest
      else ' ' :: collapseAux true rest
    else c :: collapseAux false rest

/-- JS `trim()`: strip whitespace from both ends. -/
def trimChars (cs : List Char) : List Char :=
  ((cs.dropWhile (fun c => jsIsSpaceChar c)).reverse.dropWhile
      (fun c => jsIsSpaceChar c)).reverse

/-- Source `normalizeText`: lower-case, collapse every `[^\w\s]`
character to a space, squeeze whitespace runs, trim. -/
def normalizeText (text : String) : String :=
  String.mk (trimChars (collapseAux false
    ((text.data.map jsToLower).map
      (fun c => if jsIsWordChar c || jsIsSpaceChar c then c else ' '))))

/-- Match-counting loop of `findBestMatchingCollection` (lines 124-135):
for each word found in the keyword index, bump the counter of every
collection the word maps to. -/
def buildMatches (ktc : JsMap (List String)) (words : List String) :
    JsMap Nat :=
  words.foldl (fun m word =>
    match jsGet ktc word with
    | some collections =>
      collections.foldl (fun m c => jsSet m c ((jsGet m c).getD 0 + 1)) m
    | none => m) []

/-- Priority looked up as the source does:
`collectionPriorities.get(collection) || 99` — an absent entry *or a
configured priority of 0* (falsy in JS) becomes 99. -/
def effPriority (prio : JsMap Int) (c : String) : Int :=
  match jsGet prio c with
  | some p => if p = 0 then 99 else p
  | none => 99

/-- Strict comparison from line 144 of the source:
`score > bestScore || (score === bestScore && priority < bestPriority)`. -/
def beats (s : Nat) (p : Int) (bs : Nat) (bp : Int) : Prop :=
  bs < s ∨ (s = bs ∧ p < bp)

instance beatsDecidable (s : Nat) (p : Int) (bs : Nat) (bp : Int) :
    Decidable (beats s p bs bp) :=
  inferInstanceAs (Decidable (bs < s ∨ (s = bs ∧ p < bp)))

/-- One step of the best-collection scan (lines 142-149). -/
def selectStep (prio : JsMap Int) (b : String × Nat × Int)
    (e : String × Nat) : String × Nat × Int :=
  let priority := effPriority prio e.1
  if beats e.2 priority b.2.1 b.2.2 then (e.1, e.2, priority) else b

/-- Source `findBestMatchingCollection`, over explicit lookup maps. -/
def findBestMatchingCollection (ktc : JsMap (List String))
    (prio : JsMap Int) (productText : String) : String :=
  (List.foldl (selectStep prio) ("uncategorized", 0, 99)
    (buildMatches ktc (jsSplit productText " "))).1

/-- Source `classifyProduct`: join the text fields with spaces,
normalize, classify. -/
def classifyProduct (ktc : JsMap (List String)) (prio : JsMap Int)
    (product : Product) : String :=
  let productText := String.intercalate " "
    [jsOrString product.product_type "", jsOrString product.title "",
     jsOrString product.vendor "",
     String.intercalate " " product.tags, jsOrString product.category ""]
  findBestMatchingCollection ktc prio (normalizeText productText)

theorem beats_irrefl (s : Nat) (p : Int) : ¬ beats s p s p := by
  unfold beats; omega

theorem beats_asymm (s₁ : Nat) (p₁ : Int) (s₂ : Nat) (p₂ : Int) :
    beats s₁ p₁ s₂ p₂ → ¬ beats s₂ p₂ s₁ p₁ := by
  unfold beats; omega

theorem beats_trans (s₁ : Nat) (p₁ : Int) (s₂ : Nat) (p₂ : Int)
    (s₃ : Nat) (p₃ : Int) :
    beats s₁ p₁ s₂ p₂ → beats s₂ p₂ s₃ p₃ → beats s₁ p₁ s₃ p₃ := by
  unfold beats; omega

/-- Invariant of the best-collection scan: the scan result is the seed
or one of the scanned entries, it is never beaten by the seed, and no
scanned entry beats it. -/
theorem selectFold_spec (prio : JsMap Int) :
    ∀ (ms : List (String × Nat)) (b : String × Nat × Int),
      (List.foldl (selectStep prio) b ms = b ∨
        ∃ e ∈ ms, List.foldl (selectStep prio) b ms =
          (e.1, e.2, effPriority prio e.1)) ∧
      (List.foldl (selectStep prio) b ms = b ∨
        beats (List.foldl (selectStep prio) b ms).2.1
          (List.foldl (selectStep prio) b ms).2.2 b.2.1 b.2.2) ∧
      (∀ e ∈ ms, ¬ beats e.2 (effPriority prio e.1)
        (List.foldl (selectStep prio) b ms).2.1
        (List.foldl (selectStep prio) b ms).2.2) := by
  intro ms
  induction ms with
  | nil => intro b; exact ⟨Or.inl rfl, Or.inl rfl, by simp⟩
  | cons e rest ih =>
    intro b
    rw [List.foldl_cons]
    by_cases hbe : beats e.2 (effPriority prio e.1) b.2.1 b.2.2
    · have hstep : selectStep prio b e = (e.1, e.2, effPriority prio e.1) := by
        simp [selectStep, hbe]
      rw [hstep]
      obtain ⟨hA, hB, hC⟩ := ih (e.1, e.2, effPriority prio e.1)
      refine ⟨?_, ?_, ?_⟩
      · rcases hA with h | ⟨e', he', heq⟩
        · exact Or.inr ⟨e, List.mem_cons_self _ _, h⟩
        · exact Or.inr ⟨e', List.mem_cons_of_mem _ he', heq⟩
      · rcases hB with h | h
        · right; rw [h]; exact hbe
        · right; exact beats_trans _ _ _ _ _ _ h hbe
      · intro e' he'
        rcases List.mem_cons.mp he' with he'' | he''
        · subst he''
          rcases hB with h | h
          · rw [h]; exact beats_irrefl _ _
          · exact beats_asymm _ _ _ _ h
        · exact hC e' he''
    · have hstep : selectStep prio b e = b := by
        simp [selectStep, hbe]
      rw [hstep]
      obtain ⟨hA, hB, hC⟩ := ih b
      refine ⟨?_, ?_, ?_⟩
      · rcases hA with h | ⟨e', he', heq⟩
        · exact Or.inl h
        · exact Or.inr ⟨e', List.mem_cons_of_mem _ he', heq⟩
      · exact hB
      · intro e' he'
        rcases List.mem_cons.mp he' with he'' | he''
        · subst he''
          rcases hB with h | h
          · rw [h]; exact hbe
          · intro hcon; exact hbe (beats_trans _ _ _ _ _ _ hcon h)
        · exact hC e' he''

/-- Invariant of the inner counting fold: every entry has a positive
counter and a key that occurs in some value of the keyword index. -/
theorem innerFold_inv (ktc : JsMap (List String)) :
    ∀ (cols : List String) (m : JsMap Nat),
      (∀ c ∈ cols, ∃ k l, jsGet ktc k = some l ∧ c ∈ l) →
      (∀ e ∈ m, 1 ≤ e.2 ∧ ∃ k l, jsGet ktc k = some l ∧ e.1 ∈ l) →
      ∀ e ∈ List.foldl (fun m c => jsSet m c ((jsGet m c).getD 0 + 1)) m cols,
        1 ≤ e.2 ∧ ∃ k l, jsGet ktc k = some l ∧ e.1 ∈ l := by
  intro cols
  induction cols with
  | nil => intro m _ hm e he; exact hm e he
  | cons c cs ih =>
    intro m hcols hm
    rw [List.foldl_cons]
    apply ih
    · intro c' hc'; exact hcols c' (List.mem_cons_of_mem _ hc')
    · intro e he
      rcases mem_jsSet _ _ _ _ he with h | h
      · exact hm e h
      · rw [h]
        exact ⟨by omega, hcols c (List.mem_cons_self _ _)⟩

/-- Every entry of the matches map has a positive counter and names a
collection that some keyword-index value contains. -/
theorem buildMatches_inv (ktc : JsMap (List String)) (words : List String) :
    ∀ e ∈ buildMatches ktc words, 1 ≤ e.2 ∧
      ∃ k l, jsGet ktc k = some l ∧ e.1 ∈ l := by
  suffices h : ∀ (ws : List String) (m : JsMap Nat),
      (∀ e ∈ m, 1 ≤ e.2 ∧ ∃ k l, jsGet ktc k = some l ∧ e.1 ∈ l) →
      ∀ e ∈ List.foldl (fun m word =>
          match jsGet ktc word with
          | some collections => List.foldl
              (fun m c => jsSet m c ((jsGet m c).getD 0 + 1)) m collections
          | none => m) m ws,
        1 ≤ e.2 ∧ ∃ k l, jsGet ktc k = some l ∧ e.1 ∈ l by
    exact h words [] (by simp)
  intro ws
  induction ws with
  | nil => intro m hm; exact hm
  | cons w ws ih =>
    intro m hm
    rw [List.foldl_cons]
    apply ih
    cases hw : jsGet ktc w with
    | none => simpa [hw] using hm
    | some cols =>
      intro e he
      simp only [hw] at he
      exact innerFold_inv ktc cols m (fun c hc => ⟨w, cols, hw, hc⟩) hm e he

/-- Priority lookups pass through collections whose name differs from
the key. -/
theorem clmAux_prio_skip (c : String) :
    ∀ (cols : List (String × CollectionConfig))
      (acc : JsMap (List String) × JsMap Int),
      (∀ e ∈ cols, e.1 ≠ c) →
      jsGet (clmAux acc cols).2 c = jsGet acc.2 c := by
  intro cols
  induction cols with
  | nil => intro acc _; rfl
  | cons e rest ih =>
    intro acc hne
    show jsGet (clmAux (addKeywords e.1 acc.1 e.2.keywords,
        jsSet acc.2 e.1 e.2.priority) rest).2 c = _
    rw [ih _ (fun e' he' => hne e' (List.mem_cons_of_mem _ he'))]
    exact jsGet_jsSet_ne _ _ _ _
      (fun h => hne e (List.mem_cons_self _ _) h.symm)

/-- With unique collection names, `collectionPriorities` maps each name
to its configured priority. -/
theorem clmAux_prio_found :
    ∀ (cols : List (String × CollectionConfig))
      (acc : JsMap (List String) × JsMap Int) (c : String)
      (cfg : CollectionConfig),
      (c, cfg) ∈ cols → (cols.map Prod.fst).Nodup →
      jsGet (clmAux acc cols).2 c = some cfg.priority := by
  intro cols
  induction cols with
  | nil => intro acc c cfg h _; exact absurd h (List.not_mem_nil _)
  | cons e rest ih =>
    intro acc c cfg hmem hnd
    obtain ⟨en, ecfg⟩ := e
    simp only [List.map_cons, List.nodup_cons] at hnd
    rcases List.mem_cons.mp hmem with h | h
    · obtain ⟨hc, hcfg⟩ := Prod.mk.injEq .. ▸ h
      subst hc
      subst hcfg
      have hkeys : ∀ e' ∈ rest, e'.1 ≠ c := by
        intro e' he' hq
        exact hnd.1 (List.mem_map.mpr ⟨e', he', hq⟩)
      show jsGet (clmAux (addKeywords c acc.1 cfg.keywords,
          jsSet acc.2 c cfg.priority) rest).2 c = some cfg.priority
      rw [clmAux_prio_skip c rest _ hkeys]
      exact jsGet_jsSet_self _ _ _
    · exact ih _ c cfg h hnd.2

/-- A collection name found in a keyword-index value after
`addKeywords` was already there or is the name being added. -/
theorem addKeywords_appears (name : String) :
    ∀ (kws : List String) (m : JsMap (List String)) (c : String),
      (∃ k l, jsGet (addKeywords name m kws) k = some l ∧ c ∈ l) →
      (∃ k l, jsGet m k = some l ∧ c ∈ l) ∨ c = name := by
  intro kws
  induction kws with
  | nil => intro m c h; exact Or.inl h
  | cons kw kws ih =>
    intro m c h
    rcases ih _ c h with h' | h'
    · obtain ⟨k, l, hget, hcl⟩ := h'
      rcases jsGet_some_of_jsSet _ _ _ _ _ hget with hg | ⟨hk, hl⟩
      · exact Or.inl ⟨k, l, hg, hcl⟩
      · rw [hl] at hcl
        rcases List.mem_append.mp hcl with hin | hin
        · cases hold : jsGet m (lowerStr kw) with
          | none => rw [hold] at hin; simp at hin
          | some l₀ =>
            rw [hold] at hin
            exact Or.inl ⟨lowerStr kw, l₀, hold, by simpa using hin⟩
        · simp at hin; exact Or.inr hin
    · exact Or.inr h'

/-- A collection name found in the keyword index built by `clmAux` was
already in the accumulator or names one of the processed collections. -/
theorem clmAux_appears :
    ∀ (cols : List (String × CollectionConfig))
      (acc : JsMap (List String) × JsMap Int) (c : String),
      (∃ k l, jsGet (clmAux acc cols).1 k = some l ∧ c ∈ l) →
      (∃ k l, jsGet acc.1 k = some l ∧ c ∈ l) ∨ ∃ cfg, (c, cfg) ∈ cols := by
  intro cols
  induction cols with
  | nil => intro acc c h; exact Or.inl h
  | cons e rest ih =>
    intro acc c h
    obtain ⟨en, ecfg⟩ := e
    rcases ih _ c h with h' | ⟨cfg, hcfg⟩
    · rcases addKeywords_appears en ecfg.keywords acc.1 c h' with h'' | h''
      · exact Or.inl h''
      · subst h''
        exact Or.inr ⟨ecfg, List.mem_cons_self _ _⟩
    · exact Or.inr ⟨cfg, List.mem_cons_of_mem _ hcfg⟩

/-- Every collection name reachable through the keyword index is a key
of the taxonomy. -/
theorem createLookupMaps_appears (cols : List (String × CollectionConfig))
    (c : String)
    (h : ∃ k l, jsGet (createLookupMaps cols).1 k = some l ∧ c ∈ l) :
    ∃ cfg, (c, cfg) ∈ cols := by
  rcases clmAux_appears cols ([], []) c h with h' | h'
  · obtain ⟨k, l, hget, _⟩ := h'
    exact absurd hget (by simp [jsGet])
  · exact h'

/-- Taxonomy realizing the claim's tie-break scenario: one keyword of
category "A" at priority 5, one of category "B" at priority 2. -/
def c3TieCols : List (String × CollectionConfig) :=
  [("A", ⟨["foo"], 5, ""⟩), ("B", ⟨["bar"], 2, ""⟩),
   ("uncategorized", ⟨[], 99, ""⟩)]

/-- Taxonomy with a configured priority of 0. -/
def c3ZeroCols : List (String × CollectionConfig) :=
  [("alpha", ⟨["alpha"], 0, ""⟩), ("beta", ⟨["beta"], 1, ""⟩)]

/-- C3 counterexample: with one match each, category "alpha" has the
strictly lower configured priority (0 against 1), so the claim demands
"alpha"; the code's `collectionPriorities.get(c) || 99` treats the falsy
priority 0 as 99 and assigns "beta". -/
theorem c3_priority_zero_breaks_tiebreak :
    buildMatches (createLookupMaps c3ZeroCols).1 (jsSplit "alpha beta" " ") =
      [("alpha", 1), ("beta", 1)] ∧
    findBestMatchingCollection (createLookupMaps c3ZeroCols).1
      (createLookupMaps c3ZeroCols).2 "alpha beta" = "beta" ∧
    ("beta" : String) ≠ "alpha" := by
  refine ⟨rfl, rfl, by decide⟩

/-- C3 (amended): for every taxonomy whose configured priorities are all
nonzero (the code coerces a falsy priority 0 to 99) and whose category
names are unique, the assigned category of a product text with at least
one keyword match is a matched category with the highest match count,
and among the highest-count categories it has the lowest configured
priority; a text with no match is assigned "uncategorized"; in
particular the tie of one match each for "A" (priority 5) and "B"
(priority 2) goes to "B". -/
theorem c3_highest_count_lowest_priority :
    (∀ (cols : List (String × CollectionConfig)) (productText : String),
      (∀ e ∈ cols, e.2.priority ≠ 0) →
      (cols.map Prod.fst).Nodup →
      (buildMatches (createLookupMaps cols).1 (jsSplit productText " ") = [] →
        findBestMatchingCollection (createLookupMaps cols).1
          (createLookupMaps cols).2 productText = "uncategorized") ∧
      (buildMatches (createLookupMaps cols).1 (jsSplit productText " ") ≠ [] →
        ∃ s p,
          (findBestMatchingCollection (createLookupMaps cols).1
              (createLookupMaps cols).2 productText, s) ∈
            buildMatches (createLookupMaps cols).1 (jsSplit productText " ") ∧
          jsGet (createLookupMaps cols).2
              (findBestMatchingCollection (createLookupMaps cols).1
                (createLookupMaps cols).2 productText) = some p ∧
          ∀ e ∈ buildMatches (createLookupMaps cols).1
              (jsSplit productText " "),
            e.2 ≤ s ∧
            (e.2 = s → ∀ p', jsGet (createLookupMaps cols).2 e.1 = some p' →
              p ≤ p'))) ∧
    findBestMatchingCollection (createLookupMaps c3TieCols).1
      (createLookupMaps c3TieCols).2 "foo bar" = "B" := by
  constructor
  · intro cols productText hnz hnd
    set ktc := (createLookupMaps cols).1 with hktc
    set prio := (createLookupMaps cols).2 with hprio
    set ms := buildMatches ktc (jsSplit productText " ") with hms
    have hfb : findBestMatchingCollection ktc prio productText =
        (List.foldl (selectStep prio) ("uncategorized", 0, 99) ms).1 := rfl
    constructor
    · intro hempty
      rw [hfb, hempty]
      rfl
    · intro hne
      obtain ⟨hA, hB, hC⟩ := selectFold_spec prio ms ("uncategorized", 0, 99)
      have hent := buildMatches_inv ktc (jsSplit productText " ")
      obtain ⟨e₀, he₀⟩ : ∃ e, e ∈ ms := List.exists_mem_of_ne_nil ms hne
      have hr_ne : List.foldl (selectStep prio) ("uncategorized", 0, 99) ms ≠
          ("uncategorized", 0, 99) := by
        intro hinit
        have h1 := hC e₀ he₀
        rw [hinit] at h1
        have h2 := (hent e₀ he₀).1
        have h3 : (0 : Nat) < e₀.2 := by omega
        exact h1 (Or.inl h3)
      rcases hA with h | ⟨e, he, heq⟩
      · exact absurd h hr_ne
      · have happears := (hent e he).2
        obtain ⟨cfg, hcfg⟩ := createLookupMaps_appears cols e.1 happears
        have hpriofound : jsGet prio e.1 = some cfg.priority :=
          clmAux_prio_found cols ([], []) e.1 cfg hcfg hnd
        have heff : effPriority prio e.1 = cfg.priority := by
          have hnz' : cfg.priority ≠ 0 := hnz (e.1, cfg) hcfg
          simp [effPriority, hpriofound, hnz']
        refine ⟨e.2, cfg.priority, ?_, ?_, ?_⟩
        · rw [hfb, heq]
          exact he
        · rw [hfb, heq]
          exact hpriofound
        · intro e' he'
          have h1 := hC e' he'
          rw [heq] at h1
          have h1' : ¬ beats e'.2 (effPriority prio e'.1) e.2 cfg.priority := by
            rw [← heff]
            exact h1
          constructor
          · unfold beats at h1'
            omega
          · intro hcnt p' hp'
            obtain ⟨cfg', hcfg'⟩ :=
              createLookupMaps_appears cols e'.1 (hent e' he').2
            have hpriofound' : jsGet prio e'.1 = some cfg'.priority :=
              clmAux_prio_found cols ([], []) e'.1 cfg' hcfg' hnd
            have hp'' : p' = cfg'.priority := by
              rw [hpriofound'] at hp'
              exact (Option.some_inj.mp hp').symm
            have heff' : effPriority prio e'.1 = p' := by
              have hnz'' : cfg'.priority ≠ 0 := hnz (e'.1, cfg') hcfg'
              rw [hp'']
              simp [effPriority, hpriofound', hnz'']
            rw [heff'] at h1'
            unfold beats at h1'
            omega
  · rfl

/-- Witness for C3 (amended) at the tie-break taxonomy and the text
"foo bar": both conclusions of the general statement at concrete
inputs. -/
theorem c3_highest_count_lowest_priority_witness :
    (buildMatches (createLookupMaps c3TieCols).1 (jsSplit "foo bar" " ") = [] →
      findBestMatchingCollection (createLookupMaps c3TieCols).1
        (createLookupMaps c3TieCols).2 "foo bar" = "uncategorized") ∧
    (buildMatches (createLookupMaps c3TieCols).1 (jsSplit "foo bar" " ") ≠ [] →
      ∃ s p,
        (findBestMatchingCollection (createLookupMaps c3TieCols).1
            (createLookupMaps c3TieCols).2 "foo bar", s) ∈
          buildMatches (createLookupMaps c3TieCols).1 (jsSplit "foo bar" " ") ∧
        jsGet (createLookupMaps c3TieCols).2
            (findBestMatchingCollection (createLookupMaps c3TieCols).1
              (createLookupMaps c3TieCols).2 "foo bar") = some p ∧
        ∀ e ∈ buildMatches (createLookupMaps c3TieCols).1
            (jsSplit "foo bar" " "),
          e.2 ≤ s ∧
          (e.2 = s → ∀ p', jsGet (createLookupMaps c3TieCols).2 e.1 = some p' →
            p ≤ p')) :=
  c3_highest_count_lowest_priority.1 c3TieCols "foo bar" (by decide) (by decide)

/-- Keyword-index entries only grow while later keywords are added. -/
theorem addKeywords_mono (name : String) :
    ∀ (kws : List String) (m : JsMap (List String)) (k : String)
      (l : List String),
      jsGet m k = some l →
      ∃ l', jsGet (addKeywords name m kws) k = some l' ∧ ∀ x ∈ l, x ∈ l' := by
  intro kws
  induction kws with
  | nil => intro m k l h; exact ⟨l, h, fun x hx => hx⟩
  | cons kw kws ih =>
    intro m k l h
    show ∃ l', jsGet (addKeywords name
      (jsSet m (lowerStr kw) ((jsGet m (lowerStr kw)).getD [] ++ [name]))
      kws) k = some l' ∧ ∀ x ∈ l, x ∈ l'
    by_cases hk : k = lowerStr kw
    · rw [hk] at h ⊢
      obtain ⟨l', hl', hsub⟩ := ih _ (lowerStr kw) _
        (jsGet_jsSet_self m (lowerStr kw) ((jsGet m (lowerStr kw)).getD [] ++ [name]))
      refine ⟨l', hl', ?_⟩
      intro x hx
      apply hsub
      rw [h]
      exact List.mem_append.mpr (Or.inl (by simpa using hx))
    · obtain ⟨l', hl', hsub⟩ := ih
        (jsSet m (lowerStr kw) ((jsGet m (lowerStr kw)).getD [] ++ [name])) k l
        (by rw [jsGet_jsSet_ne _ _ _ _ hk]; exact h)
      exact ⟨l', hl', hsub⟩

/-- Adding a keyword list for a collection makes the entry of each of
its lower-cased keywords contain the collection name. -/
theorem addKeywords_adds (name : String) :
    ∀ (kws : List String) (m : JsMap (List String)) (kw : String),
      kw ∈ kws →
      ∃ l, jsGet (addKeywords name m kws) (lowerStr kw) = some l ∧
        name ∈ l := by
  intro kws
  induction kws with
  | nil => intro m kw h; exact absurd h (List.not_mem_nil _)
  | cons kw₀ kws ih =>
    intro m kw h
    show ∃ l, jsGet (addKeywords name
      (jsSet m (lowerStr kw₀) ((jsGet m (lowerStr kw₀)).getD [] ++ [name]))
      kws) (lowerStr kw) = some l ∧ name ∈ l
    rcases List.mem_cons.mp h with h' | h'
    · subst h'
      obtain ⟨l', hl', hsub⟩ := addKeywords_mono name kws _ _ _
        (jsGet_jsSet_self m (lowerStr kw) ((jsGet m (lowerStr kw)).getD [] ++ [name]))
      exact ⟨l', hl', hsub name (by simp)⟩
    · exact ih _ kw h'

/-- Keyword-index entries survive (and only grow through) the
processing of further collections. -/
theorem clmAux_ktc_mono :
    ∀ (cols : List (String × CollectionConfig))
      (acc : JsMap (List String) × JsMap Int) (k : String) (l : List String),
      jsGet acc.1 k = some l →
      ∃ l', jsGet (clmAux acc cols).1 k = some l' ∧ ∀ x ∈ l, x ∈ l' := by
  intro cols
  induction cols with
  | nil => intro acc k l h; exact ⟨l, h, fun x hx => hx⟩
  | cons e rest ih =>
    intro acc k l h
    obtain ⟨l₁, hl₁, hsub₁⟩ := addKeywords_mono e.1 e.2.keywords acc.1 k l h
    obtain ⟨l', hl', hsub'⟩ := ih (addKeywords e.1 acc.1 e.2.keywords,
      jsSet acc.2 e.1 e.2.priority) k l₁ hl₁
    exact ⟨l', hl', fun x hx => hsub' x (hsub₁ x hx)⟩

/-- The keyword index stores every configured keyword whole (only
lower-cased), with the owning collection in its entry. -/
theorem clmAux_ktc_adds :
    ∀ (cols : List (String × CollectionConfig))
      (acc : JsMap (List String) × JsMap Int) (name : String)
      (cfg : CollectionConfig) (kw : String),
      (name, cfg) ∈ cols → kw ∈ cfg.keywords →
      ∃ l, jsGet (clmAux acc cols).1 (lowerStr kw) = some l ∧ name ∈ l := by
  intro cols
  induction cols with
  | nil => intro acc name cfg kw h _; exact absurd h (List.not_mem_nil _)
  | cons e rest ih =>
    intro acc name cfg kw hmem hkw
    rcases List.mem_cons.mp hmem with h | h
    · obtain ⟨en, ecfg⟩ := e
      obtain ⟨hn, hc⟩ := Prod.mk.injEq .. ▸ h
      subst hn
      subst hc
      obtain ⟨l₁, hl₁, hname⟩ := addKeywords_adds name cfg.keywords acc.1 kw hkw
      obtain ⟨l', hl', hsub⟩ := clmAux_ktc_mono rest
        (addKeywords name acc.1 cfg.keywords,
         jsSet acc.2 name cfg.priority) (lowerStr kw) l₁ hl₁
      exact ⟨l', hl', hsub name hname⟩
    · exact ih _ name cfg kw h hkw

/-- A character that is not a word character is unchanged by
lower-casing and stays a non-word character. -/
theorem jsToLower_nonword (c : Char) (h : jsIsWordChar c = false) :
    jsToLower c = c ∧ jsIsWordChar (jsToLower c) = false := by
  have hrange : ¬ (65 ≤ c.toNat ∧ c.toNat ≤ 90) := by
    intro hc
    simp only [jsIsWordChar, Bool.or_eq_false_iff, Bool.and_eq_false_iff,
      decide_eq_false_iff_not, not_le, beq_eq_false_iff_ne, ne_eq] at h
    omega
  have heq : jsToLower c = c := by simp [jsToLower, hrange]
  refine ⟨heq, ?_⟩
  rw [heq]
  exact h

theorem mem_dropWhile_subset (p : Char → Bool) :
    ∀ (cs : List Char) (c : Char), c ∈ cs.dropWhile p → c ∈ cs := by
  intro cs
  induction cs with
  | nil => intro c h; simp [List.dropWhile] at h
  | cons d rest ih =>
    intro c h
    by_cases hd : p d
    · rw [List.dropWhile_cons_of_pos hd] at h
      exact List.mem_cons_of_mem _ (ih c h)
    · rwa [List.dropWhile_cons_of_neg hd] at h

theorem mem_trimChars_subset (cs : List Char) (c : Char)
    (h : c ∈ trimChars cs) : c ∈ cs := by
  unfold trimChars at h
  rw [List.mem_reverse] at h
  have h₁ := mem_dropWhile_subset _ _ _ h
  rw [List.mem_reverse] at h₁
  exact mem_dropWhile_subset _ _ _ h₁

/-- Characters produced by whitespace collapsing are the single space
or non-whitespace characters of the input. -/
theorem collapseAux_chars :
    ∀ (cs : List Char) (prev : Bool) (c : Char),
      c ∈ collapseAux prev cs →
      c = ' ' ∨ (c ∈ cs ∧ jsIsSpaceChar c = false) := by
  intro cs
  induction cs with
  | nil => intro prev c h; simp [collapseAux] at h
  | cons d rest ih =>
    intro prev c h
    by_cases hd : jsIsSpaceChar d
    · rcases prev with _ | _
      · simp only [collapseAux, hd, if_pos, if_neg, Bool.false_eq_true,
          reduceIte] at h
        rcases List.mem_cons.mp h with h' | h'
        · exact Or.inl h'
        · rcases ih true c h' with h'' | h''
          · exact Or.inl h''
          · exact Or.inr ⟨List.mem_cons_of_mem _ h''.1, h''.2⟩
      · simp only [collapseAux, hd, reduceIte] at h
        rcases ih true c h with h'' | h''
        · exact Or.inl h''
        · exact Or.inr ⟨List.mem_cons_of_mem _ h''.1, h''.2⟩
    · simp only [collapseAux, hd, Bool.false_eq_true, reduceIte] at h
      rcases List.mem_cons.mp h with h' | h'
      · refine Or.inr ⟨?_, ?_⟩
        · rw [h']; exact List.mem_cons_self _ _
        · rw [h']; exact Bool.eq_false_iff.mpr hd
      · rcases ih false c h' with h'' | h''
        · exact Or.inl h''
        · exact Or.inr ⟨List.mem_cons_of_mem _ h''.1, h''.2⟩

/-- Every character of a normalized text is a word character or the
single space. -/
theorem normalizeText_chars (text : String) :
    ∀ c ∈ (normalizeText text).data, jsIsWordChar c = true ∨ c = ' ' := by
  intro c hc
  have hc' : c ∈ trimChars (collapseAux false
      ((text.data.map jsToLower).map
        (fun c => if jsIsWordChar c || jsIsSpaceChar c then c else ' '))) := hc
  have hc₁ := mem_trimChars_subset _ _ hc'
  rcases collapseAux_chars _ _ _ hc₁ with h | ⟨hmem, hnsp⟩
  · exact Or.inr h
  · obtain ⟨c₀, -, hc₀⟩ := List.mem_map.mp hmem
    by_cases hword : jsIsWordChar c₀ || jsIsSpaceChar c₀
    · rw [if_pos hword] at hc₀
      subst hc₀
      rcases Bool.or_eq_true_iff.mp hword with h | h
      · exact Or.inl h
      · rw [h] at hnsp; exact absurd hnsp (by simp)
    · rw [if_neg hword] at hc₀
      exact Or.inr hc₀.symm

/-- Characters of a token produced by `split(' ')` come from the split
string and are never the space itself. -/
theorem jsSplitSkip_space_chars :
    ∀ (cs : List Char) (t : List Char), t ∈ jsSplitSkip [' '] cs 0 →
      ∀ c ∈ t, c ∈ cs ∧ ¬ c = ' ' := by
  intro cs
  induction cs with
  | nil =>
    intro t ht c hc
    simp only [jsSplitSkip, List.mem_singleton] at ht
    rw [ht] at hc
    exact absurd hc (List.not_mem_nil c)
  | cons d rest ih =>
    intro t ht c hc
    by_cases hd : d = ' '
    · rw [hd] at ht
      simp only [jsSplitSkip, listStartsWith, List.length_cons,
        List.length_nil] at ht
      rw [if_pos (by decide)] at ht
      rcases List.mem_cons.mp ht with h' | h'
      · rw [h'] at hc
        exact absurd hc (List.not_mem_nil c)
      · have := ih t h' c hc
        exact ⟨List.mem_cons_of_mem _ this.1, this.2⟩
    · have hsw : listStartsWith (d :: rest) [' '] = false := by
        simp [listStartsWith, hd]
      simp only [jsSplitSkip, hsw, Bool.false_eq_true, reduceIte] at ht
      cases hrec : jsSplitSkip [' '] rest 0 with
      | nil =>
        rw [hrec] at ht
        simp only [List.mem_singleton] at ht
        rw [ht] at hc
        rcases List.mem_cons.mp hc with h' | h'
        · rw [h']
          exact ⟨List.mem_cons_self _ _, hd⟩
        · exact absurd h' (List.not_mem_nil c)
      | cons t₀ ts =>
        rw [hrec] at ht
        rcases List.mem_cons.mp ht with h' | h'
        · rw [h'] at hc
          rcases List.mem_cons.mp hc with h'' | h''
          · rw [h'']
            exact ⟨List.mem_cons_self _ _, hd⟩
          · have := ih t₀ (by rw [hrec]; exact List.mem_cons_self _ _) c h''
            exact ⟨List.mem_cons_of_mem _ this.1, this.2⟩
        · have := ih t (by rw [hrec]; exact List.mem_cons_of_mem _ h') c hc
          exact ⟨List.mem_cons_of_mem _ this.1, this.2⟩

/-- C9: the keyword index stores every configured keyword whole (only
lower-cased) with its collection in the entry, while the product text is
tokenized into whitespace-free, punctuation-free words; hence a keyword
containing a space or any other non-word character can never equal a
token, so classification never counts a match for it. -/
theorem c9_spaced_keywords_never_match :
    (∀ (cols : List (String × CollectionConfig)) (name : String)
       (cfg : CollectionConfig) (kw : String),
      (name, cfg) ∈ cols → kw ∈ cfg.keywords →
      ∃ l, jsGet (createLookupMaps cols).1 (lowerStr kw) = some l ∧
        name ∈ l) ∧
    (∀ (text kw : String),
      (∃ c ∈ kw.data, jsIsWordChar c = false) →
      ∀ w ∈ jsSplit (normalizeText text) " ", w ≠ lowerStr kw) := by
  constructor
  · intro cols name cfg kw hmem hkw
    exact clmAux_ktc_adds cols ([], []) name cfg kw hmem hkw
  · rintro text kw ⟨c₀, hc₀, hnw⟩ w hw heq
    obtain ⟨t, ht, hwt⟩ := List.mem_map.mp hw
    have hlower := jsToLower_nonword c₀ hnw
    have hmemlower : jsToLower c₀ ∈ t := by
      have h₁ : jsToLower c₀ ∈ (lowerStr kw).data :=
        List.mem_map_of_mem jsToLower hc₀
      rw [← heq, ← hwt] at h₁
      exact h₁
    have ht' := jsSplitSkip_space_chars (normalizeText text).data t ht
      (jsToLower c₀) hmemlower
    rcases normalizeText_chars text (jsToLower c₀) ht'.1 with hword | hspace
    · rw [hlower.2] at hword
      exact absurd hword (by decide)
    · exact ht'.2 hspace

/-- Witness for C9 on the real taxonomy: the keyword "gift card" of the
"digital" collection is stored whole in the index, and no token of the
normalized text "Buy a gift-card now!" equals it. -/
theorem c9_spaced_keywords_never_match_witness :
    (∃ l, jsGet (createLookupMaps COLLECTIONS).1 (lowerStr "gift card") =
        some l ∧ "digital" ∈ l) ∧
    (∀ w ∈ jsSplit (normalizeText "Buy a gift-card now!") " ",
      w ≠ lowerStr "gift card") := by
  constructor
  · exact c9_spaced_keywords_never_match.1 COLLECTIONS "digital"
      ⟨["gift card", "subscription", "license", "software", "e-book"], 1,
        "Digital products and services"⟩ "gift card" (by decide) (by decide)
  · exact c9_spaced_keywords_never_match.2 "Buy a gift-card now!" "gift card"
      (by decide)
